import Mathlib

/-
Shallow embedding of the go-mergetyp merge-function generator.

The source generates, for a root Go type, a closure that merges a right
value into a left value: addition for numeric fields, OR for booleans,
recursion for composites, keyed union for maps, and a length-biased zip
for slices.  This file embeds:

* the runtime executors the generator returns for slices (`genSliceExec`,
  mirroring `normalize` and the element loop of `genSlice`), pointers
  (`genPtrExec`, the closure built in `gen`'s `reflect.Ptr` case), maps
  (`genMapExec`, the closure built in `genMap`), and the all-primitive
  struct executor (`genStructPrimExec`, the closure built in `genStruct`);
* the type-identity guard of `Gen` (`checkTypes`, `noopExec`, `wrapExec`);
* the recursive plan generator itself (`genF` / `genStructF` /
  `genFieldsF`), fuel-based because Go's `reflect.Type` graphs may be
  cyclic, over a type-graph environment (`Env`) of named descriptors.

Machine integers are modelled as naturals with an explicit wrap
`% 2 ^ w`; slice memory is element-granular (the byte stride of the
source is folded into the index); identifiers and skip paths are lists
of characters, matching Go strings.  Float and complex struct cells
carry IEEE-754 bit patterns whose platform additions are taken as
uninterpreted operations, since their bit-level semantics (rounding,
NaN payload propagation) cannot be captured by this embedding.
-/

namespace Mergetyp

/-! ### Slice executor: `genSlice`'s `normalize` and merge loop

A Go slice header is (data pointer, length, capacity).  `normalize`
computes the overlap `limit = min(len l, len r)` and swaps the two
headers in place when the right is longer, so the left becomes the
longer one; the loop then merges the element plan `f` over the overlap,
writing through the (post-swap) left data pointer.  Memory is a total
map from element-granular addresses to element values. -/

structure SliceHeader where
  data : Nat
  len : Nat
  cap : Nat
deriving DecidableEq, Repr

abbrev Mem (α : Type) := Nat → α

def memUpdate (m : Mem α) (a : Nat) (v : α) : Mem α :=
  fun x => if x = a then v else m x

/-- The element loop of `genSlice`: for offsets `i, i+1, …, i+k-1` it
replaces the element at `ld + j` with `f (element at ld + j) (element at
rd + j)`, in ascending order, exactly like the source's
`for offset := 0; offset < end; offset += size` loop. -/
def sliceLoop (f : α → α → α) (ld rd : Nat) : Nat → Nat → Mem α → Mem α
  | _, 0, m => m
  | i, k + 1, m =>
      sliceLoop f ld rd (i + 1) k (memUpdate m (ld + i) (f (m (ld + i)) (m (rd + i))))

/-- `normalize` of `genSlice`: returns the post-swap (left, right)
headers and the overlap element count.  The swap is performed through
the caller's header slots, so returning the swapped pair models the
persistence of the swap. -/
def normalize (l r : SliceHeader) : SliceHeader × SliceHeader × Nat :=
  if r.len > l.len then (r, l, min l.len r.len) else (l, r, min l.len r.len)

/-- The closure `genSlice` returns (element-plan case): normalize, then
merge the element plan over the overlap. -/
def genSliceExec (f : α → α → α) (l r : SliceHeader) (m : Mem α) :
    SliceHeader × SliceHeader × Mem α :=
  let n := normalize l r
  (n.1, n.2.1, sliceLoop f n.1.data n.2.1.data 0 n.2.2 m)

/-- Read the elements a header denotes out of memory. -/
def readSlice (h : SliceHeader) (m : Mem α) : List α :=
  (List.range h.len).map fun i => m (h.data + i)

/-! ### Pointer executor: the closure of `gen`'s `reflect.Ptr` case

If the left slot is nil the right's target is transferred into the left
slot and the right slot is nilled; else if the right is nil nothing
happens; else the inner executor runs on the two targets (here a pure
left-update `f`). -/

def genPtrExec (f : α → α → α) (l r : Option α) : Option α × Option α :=
  match l with
  | none => (r, none)
  | some a =>
    match r with
    | none => (some a, none)
    | some b => (some (f a b), some b)

/-- The `int32` combiner `*(*int32)(l) += *(*int32)(r)` at the bit
level: wrapping addition of `w`-bit words. -/
def wordAdd (w : Nat) (a b : Nat) : Nat := (a + b) % 2 ^ w

/-! ### Map executor: the closure of `genMap`

Go maps are modelled as association lists; `mapLookup` is `MapIndex`
(first occurrence), `mapSet` is `SetMapIndex` (replace if present, else
insert).  The executor iterates the right map's entries: absent key →
insert right's entry; present key → apply the value plan to left and
right values and write the result back. -/

def mapLookup [DecidableEq K] : List (K × V) → K → Option V
  | [], _ => none
  | (k', v') :: t, k => if k' = k then some v' else mapLookup t k

def mapSet [DecidableEq K] : List (K × V) → K → V → List (K × V)
  | [], k, v => [(k, v)]
  | (k', v') :: t, k, v => if k' = k then (k, v) :: t else (k', v') :: mapSet t k v

def genMapExec [DecidableEq K] (f : V → V → V) (l r : List (K × V)) : List (K × V) :=
  r.foldl
    (fun acc e =>
      match mapLookup acc e.1 with
      | none => mapSet acc e.1 e.2
      | some lv => mapSet acc e.1 (f lv e.2))
    l

/-! ### The type-identity guard of `Gen`

`Gen` captures the type word of a zero interface value of the root type
and wraps the generated executor (or a no-op when the plan is empty) in
a check that both arguments carry exactly that type word, panicking
otherwise.  Panic is modelled as `none`. -/

structure IfaceW (D : Type) where
  typ : Nat
  data : D
deriving DecidableEq, Repr

def checkTypes (genTyp : Nat) (l r : IfaceW D) : Option (D × D) :=
  if l.typ = genTyp ∧ r.typ = genTyp then some (l.data, r.data) else none

/-- The executor `Gen` returns when the generated plan is empty: the
guard runs, nothing is merged. -/
def noopExec (genTyp : Nat) (l r : IfaceW D) : Option (IfaceW D × IfaceW D) :=
  match checkTypes genTyp l r with
  | some _ => some (l, r)
  | none => none

/-- The executor `Gen` returns for a non-empty plan `f`. -/
def wrapExec (genTyp : Nat) (f : D → D → D × D) (l r : IfaceW D) :
    Option (IfaceW D × IfaceW D) :=
  match checkTypes genTyp l r with
  | some p => some (⟨l.typ, (f p.1 p.2).1⟩, ⟨r.typ, (f p.1 p.2).2⟩)
  | none => none

/-! ### All-primitive struct executor: the closure of `genStruct`

`genStruct` collects the offsets of same-kind primitive fields into one
list per kind (`bools, is, i8s, …, u64s, f32s, f64s, c64s, c128s` in
the source) and the returned closure runs the kind's combiner over
every offset, kind by kind, in the source's fixed order.  Struct values
are offset-indexed memories of primitive cells; the left and right
value occupy disjoint storage (the executor writes only through the
left base pointer and reads only through the right one), so the two are
modelled as separate memories.  Integer cells carry their value; float
and complex cells carry IEEE-754 bit patterns, and the platform's float
additions are passed in uninterpreted (`FloatAdds`) because their
rounding and NaN-payload behavior is outside this embedding.  A
`uintptr` field is collected into no offset list — the source's field
switch has no `Uintptr` case — and travels through the sub-plan table
instead; this executor models the closure whose sub-plan table
(`offsetFs`) is empty. -/

inductive PrimVal where
  | pbool (b : Bool)
  | pword (w : Nat) (n : Nat)
  | pfloat (w : Nat) (bits : Nat)
  | pcomplex (w : Nat) (re im : Nat)
deriving DecidableEq, Repr

abbrev PMem := Nat → PrimVal

/-- The platform's IEEE-754 additions on 32- and 64-bit patterns, left
uninterpreted: the bit-level result (rounding, NaN payload propagation)
is implementation-defined and not modelled. -/
structure FloatAdds where
  add32 : Nat → Nat → Nat
  add64 : Nat → Nat → Nat

/-- `if *(*bool)(r + off) { *(*bool)(l + off) = true }`. -/
def boolCombine (lv rv : PrimVal) : PrimVal :=
  match rv with
  | .pbool true => .pbool true
  | _ => lv

/-- `*(*intW)(l + off) += *(*intW)(r + off)` (wrapping `w`-bit add;
signed and unsigned additions coincide at the bit level). -/
def wordCombine (w : Nat) (lv rv : PrimVal) : PrimVal :=
  match lv, rv with
  | .pword _ a, .pword _ b => .pword w (wordAdd w a b)
  | _, _ => lv

/-- `*(*floatW)(l + off) += *(*floatW)(r + off)`: the platform addition
`g` applied to the two stored bit patterns. -/
def floatCombine (g : Nat → Nat → Nat) (w : Nat) (lv rv : PrimVal) : PrimVal :=
  match lv, rv with
  | .pfloat _ a, .pfloat _ b => .pfloat w (g a b)
  | _, _ => lv

/-- `*(*complexW)(l + off) += *(*complexW)(r + off)`: component-wise
platform float addition on the real and imaginary halves. -/
def complexCombine (g : Nat → Nat → Nat) (w : Nat) (lv rv : PrimVal) : PrimVal :=
  match lv, rv with
  | .pcomplex _ a1 b1, .pcomplex _ a2 b2 => .pcomplex w (g a1 a2) (g b1 b2)
  | _, _ => lv

/-- One `for _, offset := range offs` loop of the struct closure:
combine the cells at each listed offset, left := c(left, right). -/
def runOffsets (c : PrimVal → PrimVal → PrimVal) (offs : List Nat)
    (lmem rmem : PMem) : PMem :=
  offs.foldl (fun m off => memUpdate m off (c (m off) (rmem off))) lmem

/-- The per-kind offset lists `genStruct` accumulates, one per
primitive case of its field switch. -/
structure PrimOffsets where
  bools : List Nat
  is : List Nat
  i8s : List Nat
  i16s : List Nat
  i32s : List Nat
  i64s : List Nat
  us : List Nat
  u8s : List Nat
  u16s : List Nat
  u32s : List Nat
  u64s : List Nat
  f32s : List Nat
  f64s : List Nat
  c64s : List Nat
  c128s : List Nat

/-- The kind-by-kind order in which the struct closure runs its loops
(`int` and `uint` are 64-bit; a `complexW` holds two `W/2`-bit IEEE
halves added with the `W/2`-bit platform addition). -/
def stages (fa : FloatAdds) (p : PrimOffsets) :
    List ((PrimVal → PrimVal → PrimVal) × List Nat) :=
  [(boolCombine, p.bools), (wordCombine 64, p.is), (wordCombine 8, p.i8s),
   (wordCombine 16, p.i16s), (wordCombine 32, p.i32s), (wordCombine 64, p.i64s),
   (wordCombine 64, p.us), (wordCombine 8, p.u8s), (wordCombine 16, p.u16s),
   (wordCombine 32, p.u32s), (wordCombine 64, p.u64s),
   (floatCombine fa.add32 32, p.f32s), (floatCombine fa.add64 64, p.f64s),
   (complexCombine fa.add32 64, p.c64s), (complexCombine fa.add64 128, p.c128s)]

def foldStages (sts : List ((PrimVal → PrimVal → PrimVal) × List Nat))
    (lmem rmem : PMem) : PMem :=
  sts.foldl (fun m s => runOffsets s.1 s.2 m rmem) lmem

/-- The closure `genStruct` returns for a struct whose every merged
field is primitive (the sub-plan list is empty). -/
def genStructPrimExec (fa : FloatAdds) (p : PrimOffsets) (lmem rmem : PMem) : PMem :=
  foldStages (stages fa p) lmem rmem

def allOffsets (p : PrimOffsets) : List Nat :=
  [p.bools, p.is, p.i8s, p.i16s, p.i32s, p.i64s, p.us, p.u8s, p.u16s,
   p.u32s, p.u64s, p.f32s, p.f64s, p.c64s, p.c128s].flatten

def isBoolV : PrimVal → Bool
  | .pbool _ => true
  | _ => false

def isWordV : PrimVal → Bool
  | .pword _ _ => true
  | _ => false

def isFloatV : PrimVal → Bool
  | .pfloat _ _ => true
  | _ => false

def isComplexV : PrimVal → Bool
  | .pcomplex _ _ _ => true
  | _ => false

/-- The offsets of all integer-kind fields. -/
def wordOffsets (p : PrimOffsets) : List Nat :=
  p.is ++ p.i8s ++ p.i16s ++ p.i32s ++ p.i64s ++
    p.us ++ p.u8s ++ p.u16s ++ p.u32s ++ p.u64s

def floatOffsets (p : PrimOffsets) : List Nat := p.f32s ++ p.f64s

def complexOffsets (p : PrimOffsets) : List Nat := p.c64s ++ p.c128s

/-- Kind hypothesis for a pair of struct memories: each listed offset
holds a cell of its list's kind (Go guarantees this; both arguments
have the root type). -/
def kindAligned (p : PrimOffsets) (lmem rmem : PMem) : Prop :=
  (∀ off ∈ p.bools, isBoolV (lmem off) ∧ isBoolV (rmem off)) ∧
  (∀ off ∈ wordOffsets p, isWordV (lmem off) ∧ isWordV (rmem off)) ∧
  (∀ off ∈ floatOffsets p, isFloatV (lmem off) ∧ isFloatV (rmem off)) ∧
  (∀ off ∈ complexOffsets p, isComplexV (lmem off) ∧ isComplexV (rmem off))

instance (p : PrimOffsets) (lmem rmem : PMem) :
    Decidable (kindAligned p lmem rmem) := by
  unfold kindAligned
  infer_instance

/-! ### The plan generator: `gen` / `genStruct` and the skip parser

Go type descriptors form a possibly-cyclic graph, so the environment
maps type identifiers to one level of structure (`TypF`) whose children
are again identifiers; the generator is fuel-based (`GenRes.out` =
fuel exhausted).  Identifiers, skip paths, package paths and type names
are lists of characters.  The produced value is a plan tree (`Plan`)
mirroring the closure tree the source builds; `Plan.pRef key` is the
thunk `func(l, r) { (*pf)(l, r) }` dispatching through the shared slot
`structFs[key]`. -/

abbrev Name := List Char

inductive PrimK where
  | kBool
  | kWord (w : Nat)
deriving DecidableEq, Repr

inductive TypF where
  | fiface
  | fchan
  | ffunc
  | fstring
  | funsafeptr
  | finvalid
  | fprim (k : PrimK)
  | fptr (elem : Name)
  | farray (n : Nat) (elem : Name)
  | fslice (elem : Name)
  | fmap (elem : Name)
  | fstruct (pkg nm : Name) (fields : List (Name × Name))
deriving DecidableEq, Repr

abbrev Env := List (Name × TypF)

def lookupT (env : Env) (id : Name) : Option TypF := mapLookup env id

/-- `typ.PkgPath() + "." + typ.Name()`: the key of the per-generation
shared-plan table `structFs`. -/
def structKey (pkg nm : Name) : Name := pkg ++ '.' :: nm

/-- Kinds on which a non-empty skip set is allowed to travel (`gen`'s
first switch): slices, structs, arrays and pointers. -/
def skipOkKind : TypF → Bool
  | .fslice _ => true
  | .fstruct _ _ _ => true
  | .farray _ _ => true
  | .fptr _ => true
  | _ => false

/-- `genMap`'s `valNeedsIndir`: the value plan operates on the slot
holding the pointer when the map's value type is itself a map or a
pointer. -/
def valIndir (env : Env) (elem : Name) : Bool :=
  match lookupT env elem with
  | some (.fmap _) => true
  | some (.fptr _) => true
  | _ => false

inductive Plan where
  | pPrim (k : PrimK)
  | pPtr (p : Plan)
  | pArrPrim (n : Nat) (k : PrimK)
  | pArr (n : Nat) (p : Plan)
  | pSlicePrim (k : PrimK)
  | pSlice (p : Plan)
  | pMap (indir : Bool) (p : Option Plan)
  | pStruct (prims : List (Name × PrimK)) (subs : List (Name × Plan))
  | pRef (key : Name)

inductive GenRes where
  | ok (p : Option Plan) (memo : List Name)
  | err (msg : String)
  | out

def GenRes.isOk : GenRes → Bool
  | .ok _ _ => true
  | _ => false

/-- First-occurrence split of a skip path at `'>'`
(`strings.IndexByte(skip, '>')` plus the two slicings); `none` when the
path has no `'>'`. -/
def splitSkip : Name → Option (Name × Name)
  | [] => none
  | c :: t =>
    if c = '>' then some ([], t)
    else
      match splitSkip t with
      | none => none
      | some p => some (c :: p.1, p.2)

/-- Insert into a set-valued map key (`skipNextLevel[field] =
append(skipNextLevel[field], subFields)`). -/
def addNext (tbl : List (Name × List Name)) (k : Name) (v : Name) :
    List (Name × List Name) :=
  match mapLookup tbl k with
  | none => mapSet tbl k [v]
  | some old => mapSet tbl k (old ++ [v])

def insertName (l : List Name) (s : Name) : List Name :=
  if s ∈ l then l else l ++ [s]

structure SkipTables where
  myLevel : List Name
  nextLevel : List (Name × List Name)

/-- The skip-partitioning prologue of `genStruct`: single-segment paths
go to the drop set; multi-segment paths are split at the first `'>'`,
erroring on an empty field name (the source's second condition
`len(skip) < idx+1` compares the whole length against `idx+1` and is
modelled verbatim; it can never hold). -/
def parseSkips : List Name → SkipTables → Except String SkipTables
  | [], tbl => .ok tbl
  | s :: rest, tbl =>
    match splitSkip s with
    | none => parseSkips rest { tbl with myLevel := insertName tbl.myLevel s }
    | some (fld, sub) =>
      if fld = [] ∨ s.length < fld.length + 1 then
        .error "invalid skip: empty field name"
      else parseSkips rest { tbl with nextLevel := addNext tbl.nextLevel fld sub }

/-- The kind discrimination of `genStruct`'s field switch: the explicit
primitive cases versus the recursive default. -/
def classifyPrim : Option TypF → Option PrimK
  | some (.fprim k) => some k
  | _ => none

/-- The mutable state of `genStruct`'s field loop. -/
structure FState where
  myLevel : List Name
  nextLevel : List (Name × List Name)
  memo : List Name
  added : Nat
  prims : List (Name × PrimK)
  subs : List (Name × Plan)

inductive FRes where
  | fok (st : FState)
  | ferr (msg : String)
  | fout

mutual

/-- `(*generator).gen`: dispatch on the kind of the current descriptor.
`memo` is the key set of the shared-plan table `structFs`. -/
def genF (env : Env) (useMap : Bool) : Nat → Name → List Name → List Name → GenRes
  | 0, _, _, _ => .out
  | fuel + 1, id, skips, memo =>
    match lookupT env id with
    | none => .err "unknown type"
    | some t =>
      if !skips.isEmpty && !skipOkKind t then .err "unable to skip fields on kind"
      else
        match t with
        | .fiface => .err "it is impossible to merge two types that are interfaces"
        | .fchan => .err "unable to merge channels"
        | .ffunc => .err "unable to merge functions"
        | .fstring => .err "unable to merge strings"
        | .funsafeptr => .err "unable to merge unsafe pointers"
        | .finvalid => .err "unable to merge an invalid type"
        | .fprim k => .ok (some (.pPrim k)) memo
        | .fptr e =>
          match genF env useMap fuel e skips memo with
          | .ok none m => .ok none m
          | .ok (some p) m => .ok (some (.pPtr p)) m
          | o => o
        | .farray n e =>
          match lookupT env e with
          | some (.fprim k) => .ok (some (.pArrPrim n k)) memo
          | _ =>
            match genF env useMap fuel e skips memo with
            | .ok none m => .ok none m
            | .ok (some p) m => .ok (some (.pArr n p)) m
            | o => o
        | .fslice e =>
          match lookupT env e with
          | some (.fprim k) => .ok (some (.pSlicePrim k)) memo
          | _ =>
            match genF env useMap fuel e skips memo with
            | .ok none m => .ok none m
            | .ok (some p) m => .ok (some (.pSlice p)) m
            | o => o
        | .fmap e =>
          if !useMap then
            .err "unable to merge maps: use WithSlowerMapsUnsafely if it is absolutely necessary to merge maps"
          else
            match genF env useMap fuel e skips memo with
            | .ok p m => .ok (some (.pMap (valIndir env e) p)) m
            | o => o
        | .fstruct pkg nm fields =>
          if !skips.isEmpty then genStructF env useMap fuel fields skips memo
          else
            let key := structKey pkg nm
            if key ∈ memo then .ok (some (.pRef key)) memo
            else genStructF env useMap fuel fields [] (memo ++ [key])

/-- `(*generator).genStruct`: partition the skips, walk the fields,
then require both skip tables to be fully consumed; an entirely
skipped-or-empty struct yields the empty plan. -/
def genStructF (env : Env) (useMap : Bool) :
    Nat → List (Name × Name) → List Name → List Name → GenRes
  | 0, _, _, _ => .out
  | fuel + 1, fields, skips, memo =>
    match parseSkips skips ⟨[], []⟩ with
    | .error e => .err e
    | .ok tbl =>
      match genFieldsF env useMap fuel fields ⟨tbl.myLevel, tbl.nextLevel, memo, 0, [], []⟩ with
      | .ferr e => .err e
      | .fout => .out
      | .fok st =>
        if !st.myLevel.isEmpty then
          .err "did not see all fields that we were required to skip"
        else if !st.nextLevel.isEmpty then
          .err "did not see all fields names for next level skips"
        else if st.added = 0 then .ok none st.memo
        else .ok (some (.pStruct st.prims st.subs)) st.memo

/-- The field loop of `genStruct`: a dropped field consumes its entry in
the drop set; a primitive field joins its kind's offset list; any other
field is generated recursively under the skips forwarded to it
(consuming its entry in the forward table), and an empty sub-plan is
pruned. -/
def genFieldsF (env : Env) (useMap : Bool) :
    Nat → List (Name × Name) → FState → FRes
  | 0, _, _ => .fout
  | _ + 1, [], st => .fok st
  | fuel + 1, (fn, ft) :: rest, st =>
    if fn ∈ st.myLevel then
      genFieldsF env useMap fuel rest
        { st with myLevel := st.myLevel.filter (· ≠ fn) }
    else
      match classifyPrim (lookupT env ft) with
      | some k =>
        genFieldsF env useMap fuel rest
          { st with prims := st.prims ++ [(fn, k)], added := st.added + 1 }
      | none =>
        match genF env useMap fuel ft ((mapLookup st.nextLevel fn).getD []) st.memo with
        | .err e => .ferr e
        | .out => .fout
        | .ok p memo' =>
          match p with
          | none =>
            genFieldsF env useMap fuel rest
              { st with nextLevel := st.nextLevel.filter (·.1 ≠ fn), memo := memo' }
          | some pl =>
            genFieldsF env useMap fuel rest
              { st with nextLevel := st.nextLevel.filter (·.1 ≠ fn), memo := memo',
                        subs := st.subs ++ [(fn, pl)], added := st.added + 1 }

end

/-- `Gen`'s root handling: the input must be a single-indirection
handle, so a pointer root (double indirection after the first deref) is
rejected; otherwise the plan generator runs on the root descriptor with
an empty shared-plan table. -/
def GenM (env : Env) (useMap : Bool) (rootId : Name) (skips : List Name)
    (fuel : Nat) : GenRes :=
  match lookupT env rootId with
  | some (.fptr _) =>
    .err "merge functions can only be generated for single-pointer-indirection types"
  | _ => genF env useMap fuel rootId skips []

/-- Field classification used by `genStruct`'s switch: primitive fields
join an offset list, everything else goes through the recursive default
branch. -/
def isPrimT (env : Env) (id : Name) : Bool :=
  (classifyPrim (lookupT env id)).isSome

/-- The Go program `type L *L; type T struct { x L }`: a finite,
self-referential type whose cycle never passes through a struct. -/
def cycleEnv : Env :=
  [(['T'], .fstruct ['p'] ['T'] [(['x'], ['L'])]),
   (['L'], .fptr ['L'])]

/-- The Go program `type A [2]uint64` (an array of a primitive kind). -/
def primArrEnv : Env :=
  [(['A'], .farray 2 ['W']), (['W'], .fprim (.kWord 64))]

/-! ### Lemmas about the slice merge loop -/

theorem sliceLoop_out (f : α → α → α) (ld rd : Nat) :
    ∀ (k i : Nat) (m : Mem α) (a : Nat), (∀ j, j < k → a ≠ ld + (i + j)) →
      sliceLoop f ld rd i k m a = m a := by
  intro k
  induction k with
  | zero => intro i m a _; rfl
  | succ n ih =>
    intro i m a h
    rw [sliceLoop, ih (i + 1) _ a (fun j hj => by have := h (j + 1) (by omega); omega)]
    have h0 : a ≠ ld + i := by have := h 0 (Nat.succ_pos n); omega
    simp [memUpdate, h0]

theorem sliceLoop_at (f : α → α → α) (ld rd : Nat) :
    ∀ (k i : Nat) (m : Mem α),
      (∀ j1 j2, j1 < k → j2 < k → ld + (i + j1) ≠ rd + (i + j2)) →
      ∀ j, j < k →
        sliceLoop f ld rd i k m (ld + (i + j)) =
          f (m (ld + (i + j))) (m (rd + (i + j))) := by
  intro k
  induction k with
  | zero => intro i m _ j hj; omega
  | succ n ih =>
    intro i m hd j hj
    rw [sliceLoop]
    match j with
    | 0 =>
      rw [sliceLoop_out f ld rd n (i + 1) _ (ld + (i + 0))
        (fun j' hj' => by omega)]
      simp [memUpdate]
    | j' + 1 =>
      have harg : ∀ x : Nat, ld + (i + (j' + 1)) = ld + (i + 1 + j') ∧
          rd + (i + (j' + 1)) = rd + (i + 1 + j') := fun _ => by omega
      have h1 : ld + (i + (j' + 1)) = ld + (i + 1 + j') := (harg 0).1
      have h2 : rd + (i + (j' + 1)) = rd + (i + 1 + j') := (harg 0).2
      rw [h1]
      rw [ih (i + 1) _ (fun j1 j2 hj1 hj2 => by
        have := hd (j1 + 1) (j2 + 1) (by omega) (by omega); omega) j' (by omega)]
      have hld : memUpdate m (ld + i) (f (m (ld + i)) (m (rd + i))) (ld + (i + 1 + j'))
          = m (ld + (i + 1 + j')) := by
        simp [memUpdate]
        intro hc; omega
      have hrd : memUpdate m (ld + i) (f (m (ld + i)) (m (rd + i))) (rd + (i + 1 + j'))
          = m (rd + (i + 1 + j')) := by
        simp [memUpdate]
        intro hc
        exact absurd hc.symm (hd 0 (j' + 1) (by omega) (by omega) ∘ by
          intro hx; omega)
      rw [hld, hrd, ← h1, ← h2]

/-- Core of the slice merge: with the longer header `L` on the left
after normalization, the merged left contents are the element-wise
merge over the overlap followed by the longer side's tail. -/
theorem readSlice_after_loop (f : α → α → α) (L S : SliceHeader) (m : Mem α)
    (hle : S.len ≤ L.len)
    (hdisj : ∀ a b, a < S.len → b < S.len → L.data + a ≠ S.data + b) :
    readSlice L (sliceLoop f L.data S.data 0 S.len m) =
      List.zipWith f (readSlice L m) (readSlice S m) ++
        (readSlice L m).drop S.len := by
  have hlen1 : (readSlice L m).length = L.len := by simp [readSlice]
  have hlen2 : (readSlice S m).length = S.len := by simp [readSlice]
  apply List.ext_getElem
  · simp [readSlice]
    omega
  · intro i h1 h2
    have hiL : i < L.len := by simpa [readSlice] using h1
    by_cases hc : i < S.len
    · rw [List.getElem_append_left (by simp [readSlice]; omega)]
      simp only [readSlice, List.getElem_zipWith, List.getElem_map, List.getElem_range]
      have := sliceLoop_at f L.data S.data S.len 0 m
        (fun j1 j2 hj1 hj2 => by
          have := hdisj j1 j2 hj1 hj2; omega) i hc
      simpa using this
    · rw [List.getElem_append_right (by simp [readSlice]; omega)]
      simp only [readSlice, List.getElem_drop, List.getElem_map, List.getElem_range]
      have hout := sliceLoop_out f L.data S.data S.len 0 m (L.data + i)
        (fun j hj => by omega)
      simp only [readSlice, List.getElem_map, List.getElem_range] at hout ⊢
      rw [hout]
      congr 1
      have : min L.len S.len = S.len := by omega
      simp [readSlice, this]
      omega

/-- Claim C1: at call time the slice executor normalizes — if the right
sequence is longer the two headers are swapped so the left becomes the
longer one, and the swap persists to the caller — then the element plan
is merged element-wise over exactly `min` of the two pre-merge lengths;
afterwards the left sequence has length `max` of the two pre-merge
lengths, its overlap is the element-wise merge, and its tail beyond the
overlap is the tail of whichever side was longer.  (The two overlap
regions are assumed disjoint in memory, as for two distinct Go
slices.) -/
theorem genSlice_normalize_merge (f : α → α → α) (l r : SliceHeader) (m : Mem α)
    (hdisj : ∀ a b, a < min l.len r.len → b < min l.len r.len →
      (if r.len > l.len then r else l).data + a ≠
        (if r.len > l.len then l else r).data + b) :
    (genSliceExec f l r m).1.len = max l.len r.len ∧
    (r.len > l.len → (genSliceExec f l r m).1 = r ∧ (genSliceExec f l r m).2.1 = l) ∧
    readSlice (genSliceExec f l r m).1 (genSliceExec f l r m).2.2 =
      List.zipWith f (readSlice (if r.len > l.len then r else l) m)
        (readSlice (if r.len > l.len then l else r) m) ++
      (readSlice (if r.len > l.len then r else l) m).drop (min l.len r.len) := by
  by_cases hgt : r.len > l.len
  · have hexec : genSliceExec f l r m =
        (r, l, sliceLoop f r.data l.data 0 (min l.len r.len) m) := by
      simp [genSliceExec, normalize, if_pos hgt]
    simp only [if_pos hgt] at hdisj
    rw [hexec]
    simp only [if_pos hgt]
    have hmin : min l.len r.len = l.len := by omega
    refine ⟨by simp; omega, fun _ => by simp, ?_⟩
    rw [hmin] at hdisj ⊢
    exact readSlice_after_loop f r l m (by omega) hdisj
  · have hexec : genSliceExec f l r m =
        (l, r, sliceLoop f l.data r.data 0 (min l.len r.len) m) := by
      simp [genSliceExec, normalize, if_neg hgt]
    simp only [if_neg hgt] at hdisj
    rw [hexec]
    simp only [if_neg hgt]
    have hmin : min l.len r.len = r.len := by omega
    refine ⟨by simp; omega, fun hc => absurd hc hgt, ?_⟩
    rw [hmin] at hdisj ⊢
    exact readSlice_after_loop f l r m (by omega) hdisj

theorem genSlice_normalize_merge_witness :
    readSlice (genSliceExec (fun a b : Nat => a + b) ⟨0, 2, 2⟩ ⟨10, 1, 1⟩ id).1
        (genSliceExec (fun a b : Nat => a + b) ⟨0, 2, 2⟩ ⟨10, 1, 1⟩ id).2.2 =
      List.zipWith (fun a b : Nat => a + b)
          (readSlice ⟨0, 2, 2⟩ id) (readSlice ⟨10, 1, 1⟩ id) ++
        (readSlice ⟨0, 2, 2⟩ id).drop 1 := by
  have h := (genSlice_normalize_merge (fun a b : Nat => a + b) ⟨0, 2, 2⟩ ⟨10, 1, 1⟩ id
    (fun a b ha hb => by norm_num at ha hb ⊢; omega)).2.2
  simpa using h

/-- Claim C10: when the right sequence's length is at most the left's
(equal lengths included) no header swap occurs — both slice headers
(data pointer, length, capacity) are returned unchanged and only
element cells inside the overlap region are written — and the swap
happens exactly when the right is strictly longer. -/
theorem genSlice_no_swap_frame (f : α → α → α) (l r : SliceHeader) (m : Mem α)
    (hle : r.len ≤ l.len) :
    (genSliceExec f l r m).1 = l ∧ (genSliceExec f l r m).2.1 = r ∧
    (∀ a, a < l.data ∨ l.data + min l.len r.len ≤ a →
      (genSliceExec f l r m).2.2 a = m a) ∧
    (∀ (l' r' : SliceHeader) (m' : Mem α), l'.len < r'.len →
      (genSliceExec f l' r' m').1 = r' ∧ (genSliceExec f l' r' m').2.1 = l') := by
  have hng : ¬ r.len > l.len := by omega
  refine ⟨?_, ?_, ?_, ?_⟩
  · simp [genSliceExec, normalize, hng]
  · simp [genSliceExec, normalize, hng]
  · intro a ha
    simp only [genSliceExec, normalize, if_neg hng]
    exact sliceLoop_out f l.data r.data (min l.len r.len) 0 m a
      (fun j hj => by omega)
  · intro l' r' m' h
    constructor <;> simp [genSliceExec, normalize, h]

theorem genSlice_no_swap_frame_witness :
    (genSliceExec (fun a b : Nat => a + b) ⟨0, 2, 2⟩ ⟨10, 1, 1⟩ id).1 = ⟨0, 2, 2⟩ ∧
    (genSliceExec (fun a b : Nat => a + b) ⟨0, 2, 2⟩ ⟨10, 1, 1⟩ id).2.1 = ⟨10, 1, 1⟩ ∧
    (genSliceExec (fun a b : Nat => a + b) ⟨0, 2, 2⟩ ⟨10, 1, 1⟩ id).2.2 5 = id 5 :=
  have h := genSlice_no_swap_frame (fun a b : Nat => a + b) ⟨0, 2, 2⟩ ⟨10, 1, 1⟩ id
    (by decide)
  ⟨h.1, h.2.1, h.2.2.1 5 (by decide)⟩

/-- Claim C2: the pointer executor (for a non-empty element plan `f`)
reads both slots: left nil → the right's target is transferred into the
left slot and the right slot is nilled; else right nil → nothing
changes; else the inner executor runs on the two targets.  In
particular merging left nil with right →6 gives left →6, right nil, and
then merging left →6 with right →5 gives left →11 with the right slot
unchanged (`wordAdd 32` is the `int32` combiner). -/
theorem genPtr_transfer (f : α → α → α) (a b : α) (rv : Option α) :
    genPtrExec f none rv = (rv, none) ∧
    genPtrExec f (some a) none = (some a, none) ∧
    genPtrExec f (some a) (some b) = (some (f a b), some b) ∧
    genPtrExec (wordAdd 32) none (some 6) = (some 6, none) ∧
    genPtrExec (wordAdd 32) (some 6) (some 5) = (some 11, some 5) :=
  ⟨rfl, rfl, rfl, rfl, by decide⟩

/-- Claim C4: every executor `Gen` returns — the wrapped one and the
no-op returned for an empty plan — panics exactly when the dynamic type
word of either argument differs from the root type word captured at
generation; with both arguments of the exact root type the no-op
executor returns the two values unchanged. -/
theorem gen_typecheck_guard (gt : Nat) (f : D → D → D × D) (l r : IfaceW D) :
    (wrapExec gt f l r = none ↔ l.typ ≠ gt ∨ r.typ ≠ gt) ∧
    (noopExec gt l r = none ↔ l.typ ≠ gt ∨ r.typ ≠ gt) ∧
    noopExec gt l r = if l.typ = gt ∧ r.typ = gt then some (l, r) else none := by
  by_cases h : l.typ = gt ∧ r.typ = gt
  · refine ⟨?_, ?_, ?_⟩ <;> simp [wrapExec, noopExec, checkTypes, h, h.1, h.2]
  · have h' : ¬l.typ = gt ∨ ¬r.typ = gt := by tauto
    refine ⟨?_, ?_, ?_⟩ <;> simp [wrapExec, noopExec, checkTypes, h, h']

/-! ### Lemmas about the map operations -/

theorem mapLookup_set_self [DecidableEq K] (m : List (K × V)) (k : K) (v : V) :
    mapLookup (mapSet m k v) k = some v := by
  induction m with
  | nil => simp [mapSet, mapLookup]
  | cons e t ih =>
    obtain ⟨k', v'⟩ := e
    by_cases h : k' = k
    · simp [mapSet, mapLookup, h]
    · simp [mapSet, mapLookup, h, ih]

theorem mapLookup_set_ne [DecidableEq K] (m : List (K × V)) (k k' : K) (v : V)
    (h : k' ≠ k) : mapLookup (mapSet m k' v) k = mapLookup m k := by
  induction m with
  | nil => simp [mapSet, mapLookup, h]
  | cons e t ih =>
    obtain ⟨k0, v0⟩ := e
    by_cases h0 : k0 = k'
    · simp [mapSet, mapLookup, h0, h, Ne.symm h]
    · by_cases h1 : k0 = k <;> simp [mapSet, mapLookup, h0, h1, ih, Ne.symm h]

theorem mapLookup_eq_none [DecidableEq K] (m : List (K × V)) (k : K)
    (h : k ∉ m.map Prod.fst) : mapLookup m k = none := by
  induction m with
  | nil => rfl
  | cons e t ih =>
    obtain ⟨k0, v0⟩ := e
    simp only [List.map_cons, List.mem_cons] at h
    push_neg at h
    have hk : ¬k0 = k := fun hc => h.1 hc.symm
    simp [mapLookup, hk, ih h.2]

/-- Claim C3: with map merging enabled, the map executor folds the
right map's entries into the left: a key absent from the left is
inserted with the right's value, a key present in both gets the value
plan applied to the left and right values and written back, and keys of
the left absent from the right keep their value.  (The right map's key
list is duplicate-free, as Go maps are.) -/
theorem genMap_lookup_merge [DecidableEq K] (f : V → V → V) (l r : List (K × V))
    (hr : (r.map Prod.fst).Nodup) (k : K) :
    mapLookup (genMapExec f l r) k =
      match mapLookup l k, mapLookup r k with
      | some a, some b => some (f a b)
      | some a, none => some a
      | none, ob => ob := by
  induction r generalizing l with
  | nil =>
    show mapLookup l k = _
    cases h : mapLookup l k <;> simp [mapLookup, h]
  | cons e t ih =>
    obtain ⟨k0, v0⟩ := e
    simp only [List.map_cons, List.nodup_cons] at hr
    have hstep : genMapExec f l ((k0, v0) :: t) =
        genMapExec f (match mapLookup l k0 with
          | none => mapSet l k0 v0
          | some lv => mapSet l k0 (f lv v0)) t := by
      simp [genMapExec]
    rw [hstep, ih _ hr.2]
    by_cases hkk : k = k0
    · subst hkk
      have htn : mapLookup t k = none := mapLookup_eq_none t k hr.1
      have hrk : mapLookup ((k, v0) :: t) k = some v0 := by simp [mapLookup]
      rw [htn, hrk]
      cases hl : mapLookup l k
      · simp [hl, mapLookup_set_self]
      · simp [hl, mapLookup_set_self]
    · have h0 : ¬k0 = k := fun hc => hkk hc.symm
      have hrk : mapLookup ((k0, v0) :: t) k = mapLookup t k := by
        simp [mapLookup, h0]
      rw [hrk]
      cases hl : mapLookup l k0 <;>
        simp only [hl, mapLookup_set_ne l k k0 _ h0]

theorem genMap_lookup_merge_witness :
    (((([(2, [(22, 9)]), (3, [(33, 3)])] : List (Nat × List (Nat × Nat))).map
        Prod.fst).Nodup) ∧
      mapLookup (genMapExec (genMapExec (fun a b : Nat => a + b))
          [(1, [(11, 1)]), (2, [(22, 2)])] [(2, [(22, 9)]), (3, [(33, 3)])]) 2 =
        match mapLookup [(1, [(11, 1)]), (2, [(22, 2)])] 2,
            mapLookup [(2, [(22, 9)]), (3, [(33, 3)])] 2 with
        | some a, some b => some (genMapExec (fun x y : Nat => x + y) a b)
        | some a, none => some a
        | none, ob => ob) ∧
    mapLookup (genMapExec (genMapExec (fun a b : Nat => a + b))
        [(1, [(11, 1)]), (2, [(22, 2)])] [(2, [(22, 9)]), (3, [(33, 3)])]) 2 =
      some [(22, 11)] :=
  ⟨⟨by decide,
    genMap_lookup_merge (genMapExec (fun a b : Nat => a + b))
      [(1, [(11, 1)]), (2, [(22, 2)])] [(2, [(22, 9)]), (3, [(33, 3)])] (by decide) 2⟩,
   by decide⟩

/-! ### Lemmas about the struct executor's offset loops -/

theorem runOffsets_not_mem (c : PrimVal → PrimVal → PrimVal) (offs : List Nat)
    (lmem rmem : PMem) (off : Nat) (h : off ∉ offs) :
    runOffsets c offs lmem rmem off = lmem off := by
  induction offs generalizing lmem with
  | nil => rfl
  | cons o t ih =>
    simp only [List.mem_cons] at h
    push_neg at h
    show runOffsets c t (memUpdate lmem o (c (lmem o) (rmem o))) rmem off = lmem off
    rw [ih _ h.2]
    simp [memUpdate, h.1]

theorem runOffsets_mem (c : PrimVal → PrimVal → PrimVal) (offs : List Nat)
    (lmem rmem : PMem) (off : Nat) (hnd : offs.Nodup) (h : off ∈ offs) :
    runOffsets c offs lmem rmem off = c (lmem off) (rmem off) := by
  induction offs generalizing lmem with
  | nil => cases h
  | cons o t ih =>
    simp only [List.nodup_cons] at hnd
    rcases List.mem_cons.mp h with rfl | hmem
    · show runOffsets c t (memUpdate lmem off (c (lmem off) (rmem off))) rmem off = _
      rw [runOffsets_not_mem c t _ rmem off hnd.1]
      simp [memUpdate]
    · show runOffsets c t (memUpdate lmem o (c (lmem o) (rmem o))) rmem off = _
      have hne : off ≠ o := fun hc => hnd.1 (hc ▸ hmem)
      rw [ih _ hnd.2 hmem]
      simp [memUpdate, hne]

theorem foldStages_not_mem (sts : List ((PrimVal → PrimVal → PrimVal) × List Nat))
    (lmem rmem : PMem) (off : Nat) (h : ∀ s ∈ sts, off ∉ s.2) :
    foldStages sts lmem rmem off = lmem off := by
  induction sts generalizing lmem with
  | nil => rfl
  | cons s t ih =>
    show foldStages t (runOffsets s.1 s.2 lmem rmem) rmem off = _
    rw [ih _ (fun s' hs' => h s' (List.mem_cons_of_mem _ hs'))]
    exact runOffsets_not_mem _ _ _ _ _ (h s (List.mem_cons_self _ _))

theorem foldStages_mem (sts : List ((PrimVal → PrimVal → PrimVal) × List Nat))
    (lmem rmem : PMem) (off : Nat) (c : PrimVal → PrimVal → PrimVal)
    (offs : List Nat) (hnd : ((sts.map Prod.snd).flatten).Nodup)
    (hmem : (c, offs) ∈ sts) (hoff : off ∈ offs) :
    foldStages sts lmem rmem off = c (lmem off) (rmem off) := by
  induction sts generalizing lmem with
  | nil => cases hmem
  | cons s t ih =>
    have hnd' : s.2.Nodup ∧ ((t.map Prod.snd).flatten).Nodup ∧
        s.2.Disjoint ((t.map Prod.snd).flatten) := by
      simpa [List.nodup_append] using hnd
    rcases List.mem_cons.mp hmem with heq | hmem'
    · obtain rfl : s = (c, offs) := heq.symm
      show foldStages t (runOffsets c offs lmem rmem) rmem off = _
      rw [foldStages_not_mem t _ rmem off (fun s' hs' hc =>
        hnd'.2.2 hoff (List.mem_flatten.mpr
          ⟨s'.2, List.mem_map.mpr ⟨s', hs', rfl⟩, hc⟩))]
      exact runOffsets_mem c offs lmem rmem off hnd'.1 hoff
    · have hoffs : off ∉ s.2 := fun hc =>
        hnd'.2.2 hc (List.mem_flatten.mpr
          ⟨offs, List.mem_map.mpr ⟨(c, offs), hmem', rfl⟩, hoff⟩)
      show foldStages t (runOffsets s.1 s.2 lmem rmem) rmem off = _
      rw [ih _ hnd'.2.1 hmem']
      rw [runOffsets_not_mem _ _ _ _ _ hoffs]

theorem boolCombine_or (x y : Bool) :
    boolCombine (.pbool x) (.pbool y) = .pbool (x || y) := by
  cases x <;> cases y <;> rfl

theorem boolCombine_comm (lv rv : PrimVal) (hl : isBoolV lv = true)
    (hr : isBoolV rv = true) : boolCombine lv rv = boolCombine rv lv := by
  cases lv with
  | pbool x =>
    cases rv with
    | pbool y => rw [boolCombine_or, boolCombine_or, Bool.or_comm]
    | pword _ _ => simp [isBoolV] at hr
    | pfloat _ _ => simp [isBoolV] at hr
    | pcomplex _ _ _ => simp [isBoolV] at hr
  | pword _ _ => simp [isBoolV] at hl
  | pfloat _ _ => simp [isBoolV] at hl
  | pcomplex _ _ _ => simp [isBoolV] at hl

theorem wordCombine_comm (w : Nat) (lv rv : PrimVal) (hl : isWordV lv = true)
    (hr : isWordV rv = true) : wordCombine w lv rv = wordCombine w rv lv := by
  cases lv with
  | pbool _ => simp [isWordV] at hl
  | pfloat _ _ => simp [isWordV] at hl
  | pcomplex _ _ _ => simp [isWordV] at hl
  | pword w1 a =>
    cases rv with
    | pbool _ => simp [isWordV] at hr
    | pfloat _ _ => simp [isWordV] at hr
    | pcomplex _ _ _ => simp [isWordV] at hr
    | pword w2 b => simp [wordCombine, wordAdd, Nat.add_comm]

theorem floatCombine_comm (g : Nat → Nat → Nat) (w : Nat) (lv rv : PrimVal)
    (hg : ∀ a b, g a b = g b a) (hl : isFloatV lv = true)
    (hr : isFloatV rv = true) : floatCombine g w lv rv = floatCombine g w rv lv := by
  cases lv with
  | pbool _ => simp [isFloatV] at hl
  | pword _ _ => simp [isFloatV] at hl
  | pcomplex _ _ _ => simp [isFloatV] at hl
  | pfloat w1 a =>
    cases rv with
    | pbool _ => simp [isFloatV] at hr
    | pword _ _ => simp [isFloatV] at hr
    | pcomplex _ _ _ => simp [isFloatV] at hr
    | pfloat w2 b => simp [floatCombine, hg a b]

theorem complexCombine_comm (g : Nat → Nat → Nat) (w : Nat) (lv rv : PrimVal)
    (hg : ∀ a b, g a b = g b a) (hl : isComplexV lv = true)
    (hr : isComplexV rv = true) :
    complexCombine g w lv rv = complexCombine g w rv lv := by
  cases lv with
  | pbool _ => simp [isComplexV] at hl
  | pword _ _ => simp [isComplexV] at hl
  | pfloat _ _ => simp [isComplexV] at hl
  | pcomplex w1 a1 b1 =>
    cases rv with
    | pbool _ => simp [isComplexV] at hr
    | pword _ _ => simp [isComplexV] at hr
    | pfloat _ _ => simp [isComplexV] at hr
    | pcomplex w2 a2 b2 => simp [complexCombine, hg a1 a2, hg b1 b2]

/-- Pointwise behavior of the all-primitive struct closure: each listed
field of the left value becomes its kind's combiner applied to the two
original cells, unlisted cells are untouched, the produced value is
field-wise the same as `merge(b, a)`'s on the bool and integer offsets
unconditionally, and on the float and complex offsets exactly when the
platform's bit-level float additions commute — which IEEE-754 does not
promise for NaN payloads, so no unconditional claim is made there. -/
theorem genStructPrim_pointwise (fa : FloatAdds) (p : PrimOffsets)
    (lmem rmem : PMem) (hnd : (allOffsets p).Nodup)
    (halign : kindAligned p lmem rmem) :
    (∀ (c : PrimVal → PrimVal → PrimVal) (offs : List Nat),
      (c, offs) ∈ stages fa p → ∀ off ∈ offs,
        genStructPrimExec fa p lmem rmem off = c (lmem off) (rmem off)) ∧
    (∀ off, off ∉ allOffsets p → genStructPrimExec fa p lmem rmem off = lmem off) ∧
    (∀ off ∈ p.bools ++ wordOffsets p,
      genStructPrimExec fa p lmem rmem off = genStructPrimExec fa p rmem lmem off) ∧
    ((∀ a b, fa.add32 a b = fa.add32 b a) → (∀ a b, fa.add64 a b = fa.add64 b a) →
      ∀ off ∈ allOffsets p,
        genStructPrimExec fa p lmem rmem off = genStructPrimExec fa p rmem lmem off) := by
  have hone : ∀ (c : PrimVal → PrimVal → PrimVal) (offs : List Nat),
      (c, offs) ∈ stages fa p → ∀ off ∈ offs,
        genStructPrimExec fa p lmem rmem off = c (lmem off) (rmem off) :=
    fun c offs hs off hoff => foldStages_mem (stages fa p) lmem rmem off c offs hnd hs hoff
  have hone' : ∀ (c : PrimVal → PrimVal → PrimVal) (offs : List Nat),
      (c, offs) ∈ stages fa p → ∀ off ∈ offs,
        genStructPrimExec fa p rmem lmem off = c (rmem off) (lmem off) :=
    fun c offs hs off hoff => foldStages_mem (stages fa p) rmem lmem off c offs hnd hs hoff
  have hbool : ∀ off ∈ p.bools,
      genStructPrimExec fa p lmem rmem off = genStructPrimExec fa p rmem lmem off := by
    intro off h
    rw [hone boolCombine p.bools (by simp [stages]) off h,
      hone' boolCombine p.bools (by simp [stages]) off h]
    exact boolCombine_comm _ _ (halign.1 off h).1 (halign.1 off h).2
  have hword : ∀ (off w : Nat) (offs : List Nat),
      (wordCombine w, offs) ∈ stages fa p → off ∈ offs → off ∈ wordOffsets p →
      genStructPrimExec fa p lmem rmem off = genStructPrimExec fa p rmem lmem off := by
    intro off w offs hs hoffs hw
    rw [hone _ _ hs off hoffs, hone' _ _ hs off hoffs]
    exact wordCombine_comm w _ _ (halign.2.1 off hw).1 (halign.2.1 off hw).2
  have hbw : ∀ off ∈ p.bools ++ wordOffsets p,
      genStructPrimExec fa p lmem rmem off = genStructPrimExec fa p rmem lmem off := by
    intro off hoff
    rcases List.mem_append.mp hoff with hb | hw
    · exact hbool off hb
    · have hw10 : off ∈ p.is ∨ off ∈ p.i8s ∨ off ∈ p.i16s ∨ off ∈ p.i32s ∨
          off ∈ p.i64s ∨ off ∈ p.us ∨ off ∈ p.u8s ∨ off ∈ p.u16s ∨
          off ∈ p.u32s ∨ off ∈ p.u64s := by simpa [wordOffsets] using hw
      rcases hw10 with h | h | h | h | h | h | h | h | h | h
      · exact hword off 64 p.is (by simp [stages]) h hw
      · exact hword off 8 p.i8s (by simp [stages]) h hw
      · exact hword off 16 p.i16s (by simp [stages]) h hw
      · exact hword off 32 p.i32s (by simp [stages]) h hw
      · exact hword off 64 p.i64s (by simp [stages]) h hw
      · exact hword off 64 p.us (by simp [stages]) h hw
      · exact hword off 8 p.u8s (by simp [stages]) h hw
      · exact hword off 16 p.u16s (by simp [stages]) h hw
      · exact hword off 32 p.u32s (by simp [stages]) h hw
      · exact hword off 64 p.u64s (by simp [stages]) h hw
  refine ⟨hone, ?_, hbw, ?_⟩
  · intro off hoff
    exact foldStages_not_mem (stages fa p) lmem rmem off (fun s hs hc =>
      hoff (List.mem_flatten.mpr ⟨s.2, List.mem_map.mpr ⟨s, hs, rfl⟩, hc⟩))
  · intro h32 h64 off hoff
    have hfloat : ∀ (g : Nat → Nat → Nat) (w : Nat) (offs : List Nat),
        (floatCombine g w, offs) ∈ stages fa p → off ∈ offs →
        (∀ a b, g a b = g b a) → off ∈ floatOffsets p →
        genStructPrimExec fa p lmem rmem off = genStructPrimExec fa p rmem lmem off := by
      intro g w offs hs hoffs hg hf
      rw [hone _ _ hs off hoffs, hone' _ _ hs off hoffs]
      exact floatCombine_comm g w _ _ hg (halign.2.2.1 off hf).1 (halign.2.2.1 off hf).2
    have hcomplex : ∀ (g : Nat → Nat → Nat) (w : Nat) (offs : List Nat),
        (complexCombine g w, offs) ∈ stages fa p → off ∈ offs →
        (∀ a b, g a b = g b a) → off ∈ complexOffsets p →
        genStructPrimExec fa p lmem rmem off = genStructPrimExec fa p rmem lmem off := by
      intro g w offs hs hoffs hg hc
      rw [hone _ _ hs off hoffs, hone' _ _ hs off hoffs]
      exact complexCombine_comm g w _ _ hg (halign.2.2.2 off hc).1 (halign.2.2.2 off hc).2
    have hsplit : off ∈ p.bools ∨ off ∈ p.is ∨ off ∈ p.i8s ∨ off ∈ p.i16s ∨
        off ∈ p.i32s ∨ off ∈ p.i64s ∨ off ∈ p.us ∨ off ∈ p.u8s ∨
        off ∈ p.u16s ∨ off ∈ p.u32s ∨ off ∈ p.u64s ∨ off ∈ p.f32s ∨
        off ∈ p.f64s ∨ off ∈ p.c64s ∨ off ∈ p.c128s := by
      simpa [allOffsets] using hoff
    rcases hsplit with h | h | h | h | h | h | h | h | h | h | h | h | h | h | h
    · exact hbool off h
    · exact hword off 64 p.is (by simp [stages]) h (by simp [wordOffsets, h])
    · exact hword off 8 p.i8s (by simp [stages]) h (by simp [wordOffsets, h])
    · exact hword off 16 p.i16s (by simp [stages]) h (by simp [wordOffsets, h])
    · exact hword off 32 p.i32s (by simp [stages]) h (by simp [wordOffsets, h])
    · exact hword off 64 p.i64s (by simp [stages]) h (by simp [wordOffsets, h])
    · exact hword off 64 p.us (by simp [stages]) h (by simp [wordOffsets, h])
    · exact hword off 8 p.u8s (by simp [stages]) h (by simp [wordOffsets, h])
    · exact hword off 16 p.u16s (by simp [stages]) h (by simp [wordOffsets, h])
    · exact hword off 32 p.u32s (by simp [stages]) h (by simp [wordOffsets, h])
    · exact hword off 64 p.u64s (by simp [stages]) h (by simp [wordOffsets, h])
    · exact hfloat fa.add32 32 p.f32s (by simp [stages]) h h32 (by simp [floatOffsets, h])
    · exact hfloat fa.add64 64 p.f64s (by simp [stages]) h h64 (by simp [floatOffsets, h])
    · exact hcomplex fa.add32 64 p.c64s (by simp [stages]) h h32 (by simp [complexOffsets, h])
    · exact hcomplex fa.add64 128 p.c128s (by simp [stages]) h h64 (by simp [complexOffsets, h])

/-! ### Divergence of generation on a pointer-only type cycle -/

theorem genF_cycle_out : ∀ (fuel : Nat) (memo : List Name),
    genF cycleEnv false fuel ['L'] [] memo = .out := by
  intro fuel
  induction fuel with
  | zero => intro memo; rfl
  | succ n ih =>
    intro memo
    have e : lookupT cycleEnv ['L'] = some (.fptr ['L']) := rfl
    simp [genF, e, ih memo, skipOkKind]

theorem genFields_cycle_fout (n : Nat) (memo : List Name) :
    genFieldsF cycleEnv false (n + 1) [(['x'], ['L'])]
      ⟨[], [], memo, 0, [], []⟩ = .fout := by
  have e : lookupT cycleEnv ['L'] = some (.fptr ['L']) := rfl
  simp [genFieldsF, e, mapLookup, classifyPrim, genF_cycle_out]

/-- Claim C7 (code behavior): generation does not terminate on the
finite self-referential aggregate `type T struct { x L }` with
`type L *L` — the struct memo is bypassed because the cycle never
passes through a struct kind, so for every fuel bound the generator is
still recursing (it never returns an executor or an error). -/
theorem gen_ptr_cycle_no_result : ∀ fuel : Nat,
    GenM cycleEnv false ['T'] [] fuel = .out := by
  intro fuel
  match fuel with
  | 0 => rfl
  | 1 => rfl
  | n + 2 =>
    have e0 : lookupT cycleEnv ['T'] =
        some (.fstruct ['p'] ['T'] [(['x'], ['L'])]) := rfl
    show genF cycleEnv false (n + 2) ['T'] [] [] = .out
    simp [genF, e0, skipOkKind, genStructF, parseSkips]
    match n with
    | 0 => rfl
    | m + 1 => rw [genFields_cycle_fout]

/-- Claim C8 (code behavior at the failing input): with the root type
`[2]uint64` and the skip path `">x"` — a path with a leading empty
segment — generation succeeds and returns an executor: the array
fast path for primitive element kinds returns before the skip set is
ever examined, so the invalid path is silently dropped. -/
theorem gen_empty_segment_accepted :
    GenM primArrEnv false ['A'] [['>', 'x']] 4 =
      .ok (some (.pArrPrim 2 (.kWord 64))) [] := rfl

/-! ### Identity of the shared-plan table key -/

theorem append_cons_inj (c : Char) :
    ∀ (u1 : List Char) (v1 u2 v2 : List Char), c ∉ u1 → c ∉ u2 →
      u1 ++ c :: v1 = u2 ++ c :: v2 → u1 = u2 ∧ v1 = v2 := by
  intro u1
  induction u1 with
  | nil =>
    intro v1 u2 v2 _ h2 heq
    cases u2 with
    | nil => simpa using heq
    | cons y s =>
      simp only [List.nil_append, List.cons_append, List.cons.injEq] at heq
      exact absurd (heq.1 ▸ List.mem_cons_self y s) (heq.1 ▸ h2)
  | cons x t ih =>
    intro v1 u2 v2 h1 h2 heq
    cases u2 with
    | nil =>
      simp only [List.nil_append, List.cons_append, List.cons.injEq] at heq
      exact absurd (heq.1 ▸ List.mem_cons_self x t) (fun hc => h1 (heq.1 ▸ hc))
    | cons y s =>
      simp only [List.cons_append, List.cons.injEq] at heq
      have h1' : c ∉ t := fun hc => h1 (List.mem_cons_of_mem x hc)
      have h2' : c ∉ s := fun hc => h2 (List.mem_cons_of_mem y hc)
      obtain ⟨hu, hv⟩ := ih v1 s v2 h1' h2' heq.2
      exact ⟨by rw [heq.1, hu], hv⟩

/-- Claim C6: the per-generation plan table binds aggregates by stable
nominal identity.  Its key `PkgPath + "." + Name` is injective on
nominal types (Go identifiers contain no `'.'`), so two references
compare equal under the key exactly when they are the same nominal
aggregate; and during a generation with no residual skips, a struct
whose key is already in the table yields the dispatch thunk through the
shared slot for that key, leaving the table unchanged — every
recurrence aliases the one stored plan node. -/
theorem structKey_nominal_identity :
    (∀ (p1 n1 p2 n2 : Name), '.' ∉ n1 → '.' ∉ n2 →
      (structKey p1 n1 = structKey p2 n2 ↔ p1 = p2 ∧ n1 = n2)) ∧
    (∀ (env : Env) (useMap : Bool) (fuel : Nat) (id : Name) (memo : List Name)
      (pkg nm : Name) (flds : List (Name × Name)),
      lookupT env id = some (.fstruct pkg nm flds) → structKey pkg nm ∈ memo →
      genF env useMap (fuel + 1) id [] memo =
        .ok (some (.pRef (structKey pkg nm))) memo) := by
  constructor
  · intro p1 n1 p2 n2 h1 h2
    constructor
    · intro heq
      have hrev : n1.reverse ++ '.' :: p1.reverse = n2.reverse ++ '.' :: p2.reverse := by
        have := congrArg List.reverse heq
        simpa [structKey, List.reverse_append] using this
      have h1r : '.' ∉ n1.reverse := by simpa using h1
      have h2r : '.' ∉ n2.reverse := by simpa using h2
      obtain ⟨hn, hp⟩ := append_cons_inj '.' n1.reverse p1.reverse n2.reverse
        p2.reverse h1r h2r hrev
      constructor
      · have := congrArg List.reverse hp; simpa using this
      · have := congrArg List.reverse hn; simpa using this
    · rintro ⟨rfl, rfl⟩; rfl
  · intro env useMap fuel id memo pkg nm flds hlk hmem
    simp [genF, hlk, hmem]

theorem structKey_nominal_identity_witness :
    ('.' ∉ (['B'] : Name)) ∧
    (structKey ['a'] ['B'] = structKey ['a'] ['B'] ↔
      (['a'] : Name) = ['a'] ∧ (['B'] : Name) = ['B']) ∧
    genF cycleEnv false 1 ['T'] [] [structKey ['p'] ['T']] =
      .ok (some (.pRef (structKey ['p'] ['T']))) [structKey ['p'] ['T']] :=
  ⟨by decide,
   (structKey_nominal_identity.1 ['a'] ['B'] ['a'] ['B'] (by decide) (by decide)),
   structKey_nominal_identity.2 cycleEnv false 0 ['T'] [structKey ['p'] ['T']]
     ['p'] ['T'] [(['x'], ['L'])] rfl (List.mem_cons_self _ _)⟩

/-! ### Lemmas about skip consumption in `genStruct` -/

theorem mem_insertName_self (l : List Name) (s : Name) : s ∈ insertName l s := by
  by_cases h : s ∈ l <;> simp [insertName, h]

theorem mem_insertName_of_mem (l : List Name) (s s' : Name) (h : s ∈ l) :
    s ∈ insertName l s' := by
  by_cases h' : s' ∈ l <;> simp [insertName, h', h]

theorem mapLookup_addNext_self (tbl : List (Name × List Name)) (k v : Name) :
    ∃ w, mapLookup (addNext tbl k v) k = some w := by
  unfold addNext
  cases mapLookup tbl k <;> exact ⟨_, mapLookup_set_self _ _ _⟩

theorem mapLookup_addNext_keep (tbl : List (Name × List Name)) (k k' v : Name)
    (h : ∃ w, mapLookup tbl k = some w) :
    ∃ w, mapLookup (addNext tbl k' v) k = some w := by
  by_cases hk : k' = k
  · subst hk; exact mapLookup_addNext_self tbl k' v
  · unfold addNext
    cases mapLookup tbl k' <;> rw [mapLookup_set_ne _ _ _ _ hk] <;> exact h

theorem mapLookup_filter_ne [DecidableEq K] (l : List (K × V)) (fn x : K)
    (h : x ≠ fn) : mapLookup (l.filter (·.1 ≠ fn)) x = mapLookup l x := by
  induction l with
  | nil => rfl
  | cons e t ih =>
    obtain ⟨k, v⟩ := e
    rw [List.filter_cons]
    by_cases hk : k = fn
    · have hd : (decide ((k, v).1 ≠ fn)) = false := by simp [hk]
      rw [hd]
      have hkx : ¬k = x := fun hc => h (hc.symm.trans hk)
      simp only [Bool.false_eq_true, if_false, mapLookup, if_neg hkx]
      exact ih
    · have hd : (decide ((k, v).1 ≠ fn)) = true := by simp [hk]
      rw [hd]
      simp only [if_true, mapLookup]
      by_cases hx : k = x
      · simp [hx]
      · simp only [if_neg hx]
        simpa using ih

theorem parseSkips_single_mem :
    ∀ (skips : List Name) (tbl tbl' : SkipTables) (s : Name),
      parseSkips skips tbl = .ok tbl' →
      (s ∈ tbl.myLevel ∨ (s ∈ skips ∧ splitSkip s = none)) →
      s ∈ tbl'.myLevel := by
  intro skips
  induction skips with
  | nil =>
    intro tbl tbl' s hp hs
    simp only [parseSkips, Except.ok.injEq] at hp
    rcases hs with h | h
    · rw [← hp]; exact h
    · exact absurd h.1 (List.not_mem_nil s)
  | cons s0 rest ih =>
    intro tbl tbl' s hp hs
    simp only [parseSkips] at hp
    cases hsp : splitSkip s0 with
    | none =>
      simp only [hsp] at hp
      apply ih _ tbl' s hp
      rcases hs with h | ⟨hmem, hs2⟩
      · exact Or.inl (mem_insertName_of_mem _ _ _ h)
      · rcases List.mem_cons.mp hmem with rfl | hmem'
        · exact Or.inl (mem_insertName_self _ _)
        · exact Or.inr ⟨hmem', hs2⟩
    | some pr =>
      obtain ⟨fld, sub⟩ := pr
      simp only [hsp] at hp
      by_cases hc : fld = [] ∨ s0.length < fld.length + 1
      · rw [if_pos hc] at hp; simp at hp
      · rw [if_neg hc] at hp
        apply ih _ tbl' s hp
        rcases hs with h | ⟨hmem, hs2⟩
        · exact Or.inl h
        · rcases List.mem_cons.mp hmem with rfl | hmem'
          · rw [hsp] at hs2; simp at hs2
          · exact Or.inr ⟨hmem', hs2⟩

theorem parseSkips_next_mem :
    ∀ (skips : List Name) (tbl tbl' : SkipTables) (x sub s : Name),
      parseSkips skips tbl = .ok tbl' →
      ((∃ v, mapLookup tbl.nextLevel x = some v) ∨
        (s ∈ skips ∧ splitSkip s = some (x, sub))) →
      ∃ v, mapLookup tbl'.nextLevel x = some v := by
  intro skips
  induction skips with
  | nil =>
    intro tbl tbl' x sub s hp hs
    simp only [parseSkips, Except.ok.injEq] at hp
    rcases hs with h | h
    · rw [← hp]; exact h
    · exact absurd h.1 (List.not_mem_nil s)
  | cons s0 rest ih =>
    intro tbl tbl' x sub s hp hs
    simp only [parseSkips] at hp
    cases hsp : splitSkip s0 with
    | none =>
      simp only [hsp] at hp
      apply ih _ tbl' x sub s hp
      rcases hs with h | ⟨hmem, hs2⟩
      · exact Or.inl h
      · rcases List.mem_cons.mp hmem with rfl | hmem'
        · rw [hsp] at hs2; simp at hs2
        · exact Or.inr ⟨hmem', hs2⟩
    | some pr =>
      obtain ⟨fld, sub0⟩ := pr
      simp only [hsp] at hp
      by_cases hc : fld = [] ∨ s0.length < fld.length + 1
      · rw [if_pos hc] at hp; simp at hp
      · rw [if_neg hc] at hp
        apply ih _ tbl' x sub s hp
        rcases hs with h | ⟨hmem, hs2⟩
        · exact Or.inl (mapLookup_addNext_keep _ _ _ _ h)
        · rcases List.mem_cons.mp hmem with rfl | hmem'
          · rw [hsp] at hs2
            simp only [Option.some.injEq, Prod.mk.injEq] at hs2
            rw [← hs2.1]
            exact Or.inl (mapLookup_addNext_self _ _ _)
          · exact Or.inr ⟨hmem', hs2⟩

/-- The field loop never deletes a drop-set entry that matches no field
name: if `s` survives in the drop set and no remaining field is named
`s`, it is still there when the loop completes. -/
theorem genFieldsF_keeps_single (env : Env) (u : Bool) (s : Name) :
    ∀ (fields : List (Name × Name)) (fuel : Nat) (st st' : FState),
      s ∈ st.myLevel → s ∉ fields.map Prod.fst →
      genFieldsF env u fuel fields st = .fok st' → s ∈ st'.myLevel := by
  intro fields
  induction fields with
  | nil =>
    intro fuel st st' hs _ hgen
    match fuel with
    | 0 => simp [genFieldsF] at hgen
    | n + 1 =>
      simp only [genFieldsF, FRes.fok.injEq] at hgen
      rw [← hgen]; exact hs
  | cons fld rest ih =>
    intro fuel st st' hs hnf hgen
    obtain ⟨fn, ft⟩ := fld
    simp only [List.map_cons, List.mem_cons] at hnf
    push_neg at hnf
    match fuel with
    | 0 => simp [genFieldsF] at hgen
    | n + 1 =>
      simp only [genFieldsF] at hgen
      by_cases hmem : fn ∈ st.myLevel
      · rw [if_pos hmem] at hgen
        exact ih n { st with myLevel := st.myLevel.filter (· ≠ fn) } st'
          (List.mem_filter.mpr ⟨hs, by simp [hnf.1]⟩) hnf.2 hgen
      · rw [if_neg hmem] at hgen
        cases hcl : classifyPrim (lookupT env ft) with
        | some k =>
          rw [hcl] at hgen
          exact ih n { st with prims := st.prims ++ [(fn, k)], added := st.added + 1 } st' hs hnf.2 hgen
        | none =>
          rw [hcl] at hgen
          cases hg : genF env u n ft ((mapLookup st.nextLevel fn).getD []) st.memo with
          | err e => simp [hg] at hgen
          | out => simp [hg] at hgen
          | ok p memo' =>
            rw [hg] at hgen
            cases p with
            | none =>
              exact ih n { st with nextLevel := st.nextLevel.filter (·.1 ≠ fn), memo := memo' } st' hs hnf.2 hgen
            | some pl =>
              exact ih n { st with nextLevel := st.nextLevel.filter (·.1 ≠ fn), memo := memo', subs := st.subs ++ [(fn, pl)], added := st.added + 1 } st' hs hnf.2 hgen

/-- The field loop deletes a forward-table entry only when it descends
into a field of that name; if every field named `x` is either dropped
at this level or primitive, the entry for `x` survives the loop. -/
theorem genFieldsF_keeps_next (env : Env) (u : Bool) (x : Name) :
    ∀ (fields : List (Name × Name)) (fuel : Nat) (st st' : FState),
      (∃ v, mapLookup st.nextLevel x = some v) →
      (∀ ft, (x, ft) ∈ fields → x ∈ st.myLevel ∨ isPrimT env ft) →
      (fields.map Prod.fst).Nodup →
      genFieldsF env u fuel fields st = .fok st' →
      ∃ v, mapLookup st'.nextLevel x = some v := by
  intro fields
  induction fields with
  | nil =>
    intro fuel st st' hl _ _ hgen
    match fuel with
    | 0 => simp [genFieldsF] at hgen
    | n + 1 =>
      simp only [genFieldsF, FRes.fok.injEq] at hgen
      rw [← hgen]; exact hl
  | cons fld rest ih =>
    intro fuel st st' hl hcond hnd hgen
    obtain ⟨fn, ft⟩ := fld
    simp only [List.map_cons, List.nodup_cons] at hnd
    match fuel with
    | 0 => simp [genFieldsF] at hgen
    | n + 1 =>
      simp only [genFieldsF] at hgen
      by_cases hmem : fn ∈ st.myLevel
      · rw [if_pos hmem] at hgen
        refine ih n { st with myLevel := st.myLevel.filter (· ≠ fn) } st' hl ?_ hnd.2 hgen
        intro ft' hxf
        by_cases hfx : fn = x
        · subst hfx
          exact absurd (List.mem_map.mpr ⟨(fn, ft'), hxf, rfl⟩) hnd.1
        · rcases hcond ft' (List.mem_cons_of_mem _ hxf) with hc | hc
          · have hxfn : x ≠ fn := fun h => hfx h.symm
            exact Or.inl (List.mem_filter.mpr ⟨hc, by simp [hxfn]⟩)
          · exact Or.inr hc
      · rw [if_neg hmem] at hgen
        cases hcl : classifyPrim (lookupT env ft) with
        | some k =>
          rw [hcl] at hgen
          exact ih n { st with prims := st.prims ++ [(fn, k)], added := st.added + 1 } st' hl
            (fun ft' hxf => hcond ft' (List.mem_cons_of_mem _ hxf)) hnd.2 hgen
        | none =>
          rw [hcl] at hgen
          have hfx : fn ≠ x := by
            intro h; subst h
            rcases hcond ft (List.mem_cons_self _ _) with hc | hc
            · exact hmem hc
            · simp [isPrimT, hcl] at hc
          cases hg : genF env u n ft ((mapLookup st.nextLevel fn).getD []) st.memo with
          | err e => simp [hg] at hgen
          | out => simp [hg] at hgen
          | ok p memo' =>
            rw [hg] at hgen
            have hl' : ∃ v,
                mapLookup (st.nextLevel.filter (·.1 ≠ fn)) x = some v := by
              rw [mapLookup_filter_ne _ fn x (fun h => hfx h.symm)]; exact hl
            have hcond' : ∀ ft', (x, ft') ∈ rest → x ∈ st.myLevel ∨ isPrimT env ft' :=
              fun ft' hxf => hcond ft' (List.mem_cons_of_mem _ hxf)
            cases p with
            | none =>
              exact ih n { st with nextLevel := st.nextLevel.filter (·.1 ≠ fn), memo := memo' } st' hl' hcond' hnd.2 hgen
            | some pl =>
              exact ih n { st with nextLevel := st.nextLevel.filter (·.1 ≠ fn), memo := memo', subs := st.subs ++ [(fn, pl)], added := st.added + 1 } st' hl' hcond' hnd.2 hgen

/-- Claim C5: generation succeeds only when every configured skip is
consumed by matching a field at its level.  At a struct node, if a
single-segment skip names no field, or a multi-segment skip's first
segment names no field that is recursively descended (every field of
that name being dropped at this level or primitive), `genStruct` —
and hence `Gen` — returns an error rather than an executor. -/
theorem genStruct_unconsumed_skip_errors (env : Env) (u : Bool) (fuel : Nat)
    (fields : List (Name × Name)) (skips : List Name) (memo : List Name) :
    (∀ s ∈ skips, splitSkip s = none → s ∉ fields.map Prod.fst →
      (genStructF env u fuel fields skips memo).isOk = false) ∧
    (∀ s x sub, s ∈ skips → splitSkip s = some (x, sub) →
      (fields.map Prod.fst).Nodup →
      (∀ ft, (x, ft) ∈ fields →
        (x ∈ skips ∧ splitSkip x = none) ∨ isPrimT env ft) →
      (genStructF env u fuel fields skips memo).isOk = false) := by
  match fuel with
  | 0 => exact ⟨fun _ _ _ _ => rfl, fun _ _ _ _ _ _ _ => rfl⟩
  | n + 1 =>
    constructor
    · intro s hmem hsplit hnf
      simp only [genStructF]
      split
      · rfl
      · rename_i tbl hp
        have hs1 : s ∈ tbl.myLevel :=
          parseSkips_single_mem skips ⟨[], []⟩ tbl s hp (Or.inr ⟨hmem, hsplit⟩)
        split
        · rfl
        · rfl
        · rename_i st hg
          have hs2 : s ∈ st.myLevel :=
            genFieldsF_keeps_single env u s fields n _ st hs1 hnf hg
          cases hml : st.myLevel with
          | nil => rw [hml] at hs2; exact absurd hs2 (List.not_mem_nil s)
          | cons a l => simp [hml, GenRes.isOk]
    · intro s x sub hmem hsplit hnd hcond
      simp only [genStructF]
      split
      · rfl
      · rename_i tbl hp
        have hx : ∃ v, mapLookup tbl.nextLevel x = some v :=
          parseSkips_next_mem skips ⟨[], []⟩ tbl x sub s hp (Or.inr ⟨hmem, hsplit⟩)
        have hcond' : ∀ ft, (x, ft) ∈ fields → x ∈ tbl.myLevel ∨ isPrimT env ft := by
          intro ft hf
          rcases hcond ft hf with ⟨hx1, hx2⟩ | hp2
          · exact Or.inl (parseSkips_single_mem skips ⟨[], []⟩ tbl x hp
              (Or.inr ⟨hx1, hx2⟩))
          · exact Or.inr hp2
        split
        · rfl
        · rfl
        · rename_i st hg
          obtain ⟨v, hv⟩ :=
            genFieldsF_keeps_next env u x fields n _ st hx hcond' hnd hg
          cases hml : st.myLevel with
          | cons a l => simp [hml, GenRes.isOk]
          | nil =>
            cases hnl : st.nextLevel with
            | nil => rw [hnl] at hv; simp [mapLookup] at hv
            | cons b l2 => simp [hml, hnl, GenRes.isOk]

theorem genStruct_unconsumed_skip_errors_witness :
    ((['z'] : Name) ∈ [(['z'] : Name)] ∧ splitSkip ['z'] = none ∧
      (['z'] : Name) ∉ ([(['a'], ['W'])] : List (Name × Name)).map Prod.fst) ∧
    (genStructF primArrEnv false 5 [(['a'], ['W'])] [['z']] []).isOk = false :=
  ⟨⟨by decide, by decide, by decide⟩,
   (genStruct_unconsumed_skip_errors primArrEnv false 5 [(['a'], ['W'])]
     [['z']] []).1 ['z'] (by decide) (by decide) (by decide)⟩

end Mergetyp
